import Mathlib

/-!
Verification of the text segmentation and retrieval-ranking core:
the sentence splitter (`splitIntoSentences`), the Max-Min semantic chunker
(`SemanticChunker`), and the hybrid ranker (`applyKeywordBoost`,
`searchDocs`, `applyGrouping`).

JavaScript strings are modelled as `List Char`.  JavaScript floating-point
numbers are modelled as rationals (`ℚ`); the two transcendental library
calls `Math.sqrt` and `Math.exp` are modelled as the fields of a
`FloatOps` record, so every theorem that depends on an analytic property
of those functions states that property as an explicit hypothesis
(e.g. `O.sqrt 0 = 0`, `0 < O.exp x`), all of which hold for the real
square root and exponential.
-/

/-- JS strings as lists of characters. -/
abbrev Str := List Char

/-- The whitespace class used by `trim` and the `\s` regex class
(restricted to the ASCII whitespace actually relevant here). -/
def isWsChar (c : Char) : Bool :=
  c == ' ' || c == '\t' || c == '\n' || c == '\r'

/-- `String.prototype.trim`. -/
def trimChars (s : Str) : Str :=
  ((s.dropWhile isWsChar).reverse.dropWhile isWsChar).reverse

/-- `l` begins with the pattern `pat`. -/
def lstarts : Str → Str → Bool
  | [], _ => true
  | _ :: _, [] => false
  | p :: ps, c :: cs => p == c && lstarts ps cs

/-- `String.prototype.indexOf`: index of the first occurrence of `pat`. -/
def findSub (pat : Str) : Str → Option Nat
  | [] => if lstarts pat [] then some 0 else none
  | c :: rest =>
    if lstarts pat (c :: rest) then some 0
    else (findSub pat rest).map (· + 1)

/-- `String.prototype.replace` with a plain-string pattern:
replace the first occurrence of `pat` by `repl`. -/
def replaceFirst (pat repl : Str) : Str → Str
  | [] => []
  | c :: rest =>
    if lstarts pat (c :: rest) then repl ++ (c :: rest).drop pat.length
    else c :: replaceFirst pat repl rest

/-- The backtick character. -/
def backtick : Char := Char.ofNat 96

/-- A fenced code-block delimiter. -/
def tripleTick : Str := [backtick, backtick, backtick]

/-- Fuelled scanner for the global code-block extraction regex
(fenced: three backticks, lazy body, three backticks; or inline:
backtick, one or more non-backticks, backtick; leftmost match first).
The fuel only guards termination; it is always called with
fuel `≥` the length of the text. -/
def scanBlocksGo : Nat → Str → List Str
  | 0, _ => []
  | _ + 1, [] => []
  | fuel + 1, c :: rest =>
    if lstarts tripleTick (c :: rest) then
      match findSub tripleTick (rest.drop 2) with
      | some k =>
        ((c :: rest).take (k + 6)) :: scanBlocksGo fuel ((c :: rest).drop (k + 6))
      | none => scanBlocksGo fuel rest
    else if c == backtick then
      let inner := rest.takeWhile (fun d => d != backtick)
      if (!inner.isEmpty) && lstarts [backtick] (rest.drop inner.length) then
        (backtick :: (inner ++ [backtick])) :: scanBlocksGo fuel (rest.drop (inner.length + 1))
      else scanBlocksGo fuel rest
    else scanBlocksGo fuel rest

/-- All code-block matches of the extraction regex, in order. -/
def scanBlocks (s : Str) : List Str := scanBlocksGo s.length s

/-- The placeholder `__CODE_BLOCK_${i}__`. -/
def placeholderStr (i : Nat) : Str :=
  "__CODE_BLOCK_".toList ++ (Nat.repr i).toList ++ "__".toList

/-- The abbreviation list (each entry as it appears in the built regex
alternation, i.e. with its trailing dot). -/
def abbrevList : List Str :=
  ["Dr.", "Mr.", "Mrs.", "Ms.", "Jr.", "Sr.", "Prof.", "Ph.D.", "M.D.", "B.A.",
   "M.A.", "D.D.S.", "etc.", "i.e.", "e.g.", "vs.", "v."].map String.toList

/-- The `[.!?]` sentence-punctuation class. -/
def isPunctChar (c : Char) : Bool := c == '.' || c == '!' || c == '?'

/-- The `[A-Z]` class. -/
def isUpperAZ (c : Char) : Bool := decide ('A' ≤ c) && decide (c ≤ 'Z')

/-- The `\d` class. -/
def isDigitChar (c : Char) : Bool := decide ('0' ≤ c) && decide (c ≤ '9')

/-- The lookahead `(?=\s+[A-Z]|\s*$)` evaluated at a suffix of the text. -/
def boundaryLookahead (s : Str) : Bool :=
  match s with
  | [] => true
  | c :: _ =>
    isWsChar c &&
      (match s.dropWhile isWsChar with
       | [] => true
       | d :: _ => isUpperAZ d)

/-- The lookbehind `(?<!\d)` (given the character before the match). -/
def prevNotDigit : Option Char → Bool
  | none => true
  | some c => !isDigitChar c

/-- Fuelled scanner implementing `text.split(sentenceRegex)` for
`(?<!\d)([.!?]+)(?=\s+[A-Z]|\s*$)(?!(abbrev alternation))`:
it emits the pieces between matches interleaved with the captured
punctuation runs.  (The second capture group sits inside a negative
lookahead so it never captures; `split` inserts `undefined` for it,
which the consumer skips, so it is not represented here.)  A match is a
maximal punctuation run not started right after a digit whose
lookaheads hold after the run; a failed candidate advances one
character exactly like the backtracking regex engine. -/
def scanPartsGo : Nat → Option Char → Str → Str → List Str
  | 0, _, acc, _ => [acc.reverse]
  | _ + 1, _, acc, [] => [acc.reverse]
  | fuel + 1, prev, acc, c :: rest =>
    if isPunctChar c && prevNotDigit prev then
      let run := c :: rest.takeWhile isPunctChar
      let after := rest.drop (rest.takeWhile isPunctChar).length
      if boundaryLookahead after && !(abbrevList.any (fun a => lstarts a after)) then
        acc.reverse :: run :: scanPartsGo fuel (some (run.getLastD c)) [] after
      else scanPartsGo fuel (some c) (c :: acc) rest
    else scanPartsGo fuel (some c) (c :: acc) rest

/-- `textWithPlaceholders.split(sentenceRegex)` (minus the `undefined`
capture-group entries, which the consumer drops). -/
def splitParts (s : Str) : List Str := scanPartsGo s.length none [] s

/-- The sentence-reconstruction loop: walk the split parts, attaching a
punctuation-run part to the sentence accumulated so far and flushing,
otherwise appending the trimmed part with a single separating space. -/
def reassembleGo : List Str → Str → List Str
  | [], cur => if (trimChars cur).length ≠ 0 then [trimChars cur] else []
  | p :: ps, cur =>
    let t := trimChars p
    if t.length = 0 then reassembleGo ps cur
    else if t.all isPunctChar then
      trimChars (cur ++ t) :: reassembleGo ps []
    else reassembleGo ps (cur ++ (if cur.length ≠ 0 then ' ' :: t else t))

/-- Restore `__CODE_BLOCK_${i}__` placeholders inside one sentence. -/
def restoreBlocks (blocks : List Str) (s : Str) : Str :=
  blocks.enum.foldl (fun acc p => replaceFirst (placeholderStr p.1) p.2 acc) s

/-- `String.prototype.split` with a plain character separator. -/
def splitOnChar (sep : Char) : Str → List Str
  | [] => [[]]
  | c :: rest =>
    if c == sep then [] :: splitOnChar sep rest
    else
      match splitOnChar sep rest with
      | [] => [[c]]
      | p :: ps => (c :: p) :: ps

/-- Safe limit for embedding models. -/
def MAX_SENTENCE_LENGTH : Nat := 2000

/-- The comma-buffer loop used on a line still longer than the maximum:
flush the buffer when appending the next comma fragment would overflow. -/
def commaJoinGo : List Str → Str → List Str
  | [], buffer => if (trimChars buffer).length ≠ 0 then [trimChars buffer] else []
  | p :: ps, buffer =>
    if MAX_SENTENCE_LENGTH < (buffer ++ p).length ∧ buffer.length ≠ 0 then
      trimChars buffer :: commaJoinGo ps p
    else commaJoinGo ps (buffer ++ (if buffer.length ≠ 0 then ',' :: p else p))

/-- Handling of one newline-split line of an oversized sentence. -/
def processLine (line : Str) : List Str :=
  if (trimChars line).length = 0 then []
  else if MAX_SENTENCE_LENGTH < line.length then commaJoinGo (splitOnChar ',' line) []
  else [trimChars line]

/-- Post-processing of one restored sentence: drop it when blank, re-split
it on newlines (and then commas) when it exceeds the maximum length. -/
def processSentence (s : Str) : List Str :=
  if (trimChars s).length = 0 then []
  else if MAX_SENTENCE_LENGTH < s.length then (splitOnChar '\n' s).flatMap processLine
  else [s]

/-- The text with every extracted code block replaced by its placeholder. -/
def placeheldText (text : Str) : Str :=
  (scanBlocks text).enum.foldl (fun acc p => replaceFirst p.2 (placeholderStr p.1) acc) text

/-- The reassembled sentences with their code blocks restored. -/
def restoredSentences (text : Str) : List Str :=
  (reassembleGo (splitParts (placeheldText text)) []).map (restoreBlocks (scanBlocks text))

/-- `splitIntoSentences` from `sentence-splitter.ts`. -/
def splitIntoSentences (text : Str) : List Str :=
  if (trimChars text).length = 0 then []
  else ((restoredSentences text).flatMap processSentence).filter (fun s => 0 < s.length)

/-! ## Semantic chunker (`semantic-chunker.ts`) -/

/-- The two float library functions the chunker and ranker call.
Analytic facts about them enter each theorem as hypotheses. -/
structure FloatOps where
  sqrt : ℚ → ℚ
  exp : ℚ → ℚ

structure ChunkerConfig where
  hardThreshold : ℚ
  initConst : ℚ
  c : ℚ
  minChunkLength : Nat
deriving DecidableEq

/-- Default configuration based on paper recommendations. -/
def DEFAULT_CHUNKER_CONFIG : ChunkerConfig :=
  { hardThreshold := 6/10, initConst := 3/2, c := 9/10, minChunkLength := 50 }

/-- Recent sentences to compare. -/
def WINDOW_SIZE : Nat := 5

/-- Force split safety limit. -/
def MAX_SENTENCES : Nat := 15

/-- Sum of squares of the entries (the `norm1`/`norm2` accumulators). -/
def sumSq (v : List ℚ) : ℚ := (v.map (fun x => x * x)).sum

/-- The `dotProduct` accumulator (over equal-length vectors). -/
def dotL (v w : List ℚ) : ℚ := ((v.zip w).map (fun p => p.1 * p.2)).sum

/-- `SemanticChunker.cosineSimilarity`. -/
def cosineSimilarity (O : FloatOps) (v1 v2 : List ℚ) : ℚ :=
  if v1.length ≠ v2.length ∨ v1.length = 0 then 0
  else if O.sqrt (sumSq v1) * O.sqrt (sumSq v2) = 0 then 0
  else dotL v1 v2 / (O.sqrt (sumSq v1) * O.sqrt (sumSq v2))

/-- `SemanticChunker.sigmoid`. -/
def sigmoid (O : FloatOps) (x : ℚ) : ℚ := 1 / (1 + O.exp (-x))

/-- All ordered pairwise similarities of a list of embeddings, in the
nested-loop order of `getMinSimilarity`. -/
def pairSims (O : FloatOps) : List (List ℚ) → List ℚ
  | [] => []
  | v :: vs => vs.map (cosineSimilarity O v) ++ pairSims O vs

/-- `SemanticChunker.getMinSimilarity`: minimum pairwise similarity over
the trailing window of `WINDOW_SIZE` embeddings, starting from `1.0`. -/
def getMinSimilarity (O : FloatOps) (embs : List (List ℚ)) : ℚ :=
  if embs.length < 2 then 1
  else (pairSims O (embs.drop (embs.length - WINDOW_SIZE))).foldl min 1

/-- `SemanticChunker.getMaxSimilarity`: maximum similarity of the new
embedding against every chunk member, starting from `-1.0`. -/
def getMaxSimilarity (O : FloatOps) (e : List ℚ) (embs : List (List ℚ)) : ℚ :=
  (embs.map (cosineSimilarity O e)).foldl max (-1)

/-- `SemanticChunker.calculateThreshold`. -/
def calculateThreshold (O : FloatOps) (cfg : ChunkerConfig) (minSim : ℚ) (chunkSize : Nat) : ℚ :=
  max (cfg.c * minSim * sigmoid O (chunkSize : ℚ)) cfg.hardThreshold

/-- `SemanticChunker.shouldAddToChunk`. -/
def shouldAddToChunk (O : FloatOps) (cfg : ChunkerConfig) (e : List ℚ)
    (chunkEmbs : List (List ℚ)) : Bool :=
  decide (calculateThreshold O cfg (getMinSimilarity O chunkEmbs) chunkEmbs.length
    < getMaxSimilarity O e chunkEmbs)

/-- The body of the `groupSentences` loop, processing the (sentence,
embedding) pairs in order while carrying the current group.  Skipped
iterations (empty sentence / missing embedding) are reflected by the
filter and the positional `zip` at the call site. -/
def groupLoop (O : FloatOps) (cfg : ChunkerConfig) :
    List (Str × List ℚ) → List Str → List (List ℚ) → List (List Str)
  | [], cur, _ => if cur.length ≠ 0 then [cur] else []
  | (s, e) :: rest, cur, curE =>
    if cur.length = 0 then groupLoop O cfg rest [s] [e]
    else if cur.length = 1 then
      if cfg.hardThreshold < cfg.initConst * cosineSimilarity O (curE.headD []) e then
        groupLoop O cfg rest (cur ++ [s]) (curE ++ [e])
      else cur :: groupLoop O cfg rest [s] [e]
    else if MAX_SENTENCES ≤ cur.length then cur :: groupLoop O cfg rest [s] [e]
    else if shouldAddToChunk O cfg e curE then
      groupLoop O cfg rest (cur ++ [s]) (curE ++ [e])
    else cur :: groupLoop O cfg rest [s] [e]

/-- `SemanticChunker.groupSentences`. -/
def groupSentences (O : FloatOps) (cfg : ChunkerConfig) (sentences : List Str)
    (embeddings : List (List ℚ)) : List (List Str) :=
  if sentences.length = 0 then []
  else if sentences.length = 1 then [[sentences.headD []]]
  else groupLoop O cfg ((sentences.zip embeddings).filter (fun p => !p.1.isEmpty)) [] []

/-- The `[a-zA-Z0-9]` class. -/
def isAlnumChar (c : Char) : Bool :=
  (decide ('a' ≤ c) && decide (c ≤ 'z')) || (decide ('A' ≤ c) && decide (c ≤ 'Z')) ||
    (decide ('0' ≤ c) && decide (c ≤ '9'))

/-- The decoration-only character class of `isGarbageChunk`. -/
def decorationChars : List Char :=
  ['-', '=', '_', '.', '*', '#', '|', '~', Char.ofNat 96, '@', '!', '%', '^', '&',
   '(', ')', '[', ']', Char.ofNat 123, Char.ofNat 125, '\\', '/', '<', '>', ':', '+']

def isDecorationChar (c : Char) : Bool := decorationChars.contains c || isWsChar c

/-- The maximum of the per-character occurrence counts. -/
def maxCharCount (s : Str) : Nat := (s.map (fun c => s.count c)).foldl max 0

/-- `isGarbageChunk` from `semantic-chunker.ts`. -/
def isGarbageChunk (text : Str) : Bool :=
  let trimmed := trimChars text
  if trimmed.length = 0 then true
  else if trimmed.any isAlnumChar then false
  else if trimmed.all isDecorationChar then true
  else decide ((8 : ℚ) / 10 < (maxCharCount trimmed : ℚ) / (trimmed.length : ℚ))

structure TextChunk where
  text : Str
  index : Nat
deriving DecidableEq

/-- `group.join(" ")`. -/
def joinSp (g : List Str) : Str := List.intercalate [' '] g

/-- The chunk-emission loop of `chunkText`: keep a group when its joined
text reaches `minChunkLength` and is not garbage, numbering surviving
chunks consecutively. -/
def chunksLoop (cfg : ChunkerConfig) : List (List Str) → Nat → List TextChunk
  | [], _ => []
  | g :: gs, idx =>
    if cfg.minChunkLength ≤ (joinSp g).length ∧ isGarbageChunk (joinSp g) = false then
      ⟨joinSp g, idx⟩ :: chunksLoop cfg gs (idx + 1)
    else chunksLoop cfg gs idx

/-- `SemanticChunker.chunkText`, with the external embedder passed as a
total order-preserving batch function. -/
def chunkText (O : FloatOps) (cfg : ChunkerConfig) (embedBatch : List Str → List (List ℚ))
    (text : Str) : List TextChunk :=
  if (trimChars text).length = 0 then []
  else
    let sentences := splitIntoSentences text
    if sentences.length = 0 then []
    else chunksLoop cfg (groupSentences O cfg sentences (embedBatch sentences)) 0

/-! ## Hybrid ranker (`lancedb.ts`) -/

structure DocChunkR where
  filePath : Str
  chunkIndex : Nat
  distance : ℚ
deriving DecidableEq

structure FtsResult where
  filePath : Str
  chunkIndex : Nat
  score : ℚ
deriving DecidableEq

/-- The candidate key `${filePath}:${chunkIndex}`. -/
def chunkKey (fp : Str) (ci : Nat) : Str := fp ++ ':' :: (Nat.repr ci).toList

/-- The `maxBm25Score` accumulation loop of `applyKeywordBoost`. -/
def maxBm25Score (fts : List FtsResult) : ℚ :=
  fts.foldl (fun m r => if m < r.score then r.score else m) 0

/-- `Map.set`: overwrite an existing binding or append a new one. -/
def mapSet (m : List (Str × ℚ)) (k : Str) (v : ℚ) : List (Str × ℚ) :=
  if m.any (fun p => p.1 == k) then m.map (fun p => if p.1 == k then (k, v) else p)
  else m ++ [(k, v)]

/-- The `ftsScoreMap` construction: normalized score per candidate key. -/
def ftsScoreMap (fts : List FtsResult) : List (Str × ℚ) :=
  fts.foldl
    (fun m r =>
      mapSet m (chunkKey r.filePath r.chunkIndex)
        (if 0 < maxBm25Score fts then r.score / maxBm25Score fts else 0)) []

/-- `Map.get(key) ?? 0`. -/
def lookupScore (m : List (Str × ℚ)) (k : Str) : ℚ :=
  match m.find? (fun p => p.1 == k) with
  | some p => p.2
  | none => 0

/-- The multiplicative boost applied to one dense candidate. -/
def boostOne (fts : List FtsResult) (weight : ℚ) (r : DocChunkR) : DocChunkR :=
  { r with
    distance := r.distance /
      (1 + lookupScore (ftsScoreMap fts) (chunkKey r.filePath r.chunkIndex) * weight) }

/-- `applyKeywordBoost`: boost every dense candidate, then stable-sort
ascending by boosted distance. -/
def applyKeywordBoost (vectorResults : List DocChunkR) (fts : List FtsResult)
    (weight : ℚ) : List DocChunkR :=
  (vectorResults.map (boostOne fts weight)).mergeSort
    (fun a b => decide (a.distance ≤ b.distance))

/-- `searchDocs`, with the external calls factored out: `vectorResults`
is the dense-search output and `ftsOutcome` the keyword-search outcome
(`none` models the keyword call throwing, recovered by the inner
`catch`). -/
def searchDocs (ftsEnabled : Bool) (hybridWeight : ℚ) (query : Str) (limitParam : Option Nat)
    (vectorResults : List DocChunkR) (ftsOutcome : Option (List FtsResult)) :
    Except Str (List DocChunkR) :=
  if limitParam.getD 10 < 1 ∨ 20 < limitParam.getD 10 then
    Except.error
      ("Invalid limit: expected 1-20, got ".toList ++ (Nat.repr (limitParam.getD 10)).toList)
  else
    Except.ok
      ((if ftsEnabled = true ∧ 0 < (trimChars query).length ∧ 0 < hybridWeight then
          match ftsOutcome with
          | some fts => applyKeywordBoost vectorResults fts hybridWeight
          | none => vectorResults
        else vectorResults).take (limitParam.getD 10))

/-! ## Relevance-gap truncation (`applyGrouping`) -/

inductive GroupingMode where
  | similar
  | related
deriving DecidableEq

def GROUPING_BOUNDARY_STD_MULTIPLIER : ℚ := 3/2

/-- The `(index, gap)` pairs between consecutive results. -/
def gapsAux : Nat → List DocChunkR → List (Nat × ℚ)
  | _, [] => []
  | _, [_] => []
  | i, a :: b :: rest => (i + 1, b.distance - a.distance) :: gapsAux (i + 1) (b :: rest)

def gapsOf (results : List DocChunkR) : List (Nat × ℚ) := gapsAux 0 results

def gapMean (gaps : List (Nat × ℚ)) : ℚ := (gaps.map Prod.snd).sum / (gaps.length : ℚ)

def gapVariance (gaps : List (Nat × ℚ)) : ℚ :=
  ((gaps.map Prod.snd).map (fun g => (g - gapMean gaps) ^ 2)).sum / (gaps.length : ℚ)

/-- `mean + GROUPING_BOUNDARY_STD_MULTIPLIER * std` (population stddev). -/
def gapThreshold (O : FloatOps) (gaps : List (Nat × ℚ)) : ℚ :=
  gapMean gaps + GROUPING_BOUNDARY_STD_MULTIPLIER * O.sqrt (gapVariance gaps)

/-- The boundary indices: gaps exceeding the statistical threshold. -/
def boundariesOf (O : FloatOps) (results : List DocChunkR) : List Nat :=
  ((gapsOf results).filter
    (fun g => decide (gapThreshold O (gapsOf results) < g.2))).map Prod.fst

/-- The `boundaryIndex = groupsToInclude - 1` selector of `applyGrouping`. -/
def boundaryIndexOf (mode : GroupingMode) : Nat :=
  (if mode = GroupingMode.similar then 1 else 2) - 1

/-- `applyGrouping` from the docs-search module. -/
def applyGrouping (O : FloatOps) (results : List DocChunkR) (mode : GroupingMode) :
    List DocChunkR :=
  if results.length ≤ 1 then results
  else if (gapsOf results).length = 0 then results
  else if (boundariesOf O results).length = 0 then results
  else if (boundariesOf O results).length ≤ boundaryIndexOf mode then
    if mode = GroupingMode.related then results
    else results.take ((boundariesOf O results).headD 0)
  else results.take ((boundariesOf O results).getD (boundaryIndexOf mode) 0)


/-! ## Claim-side definitions -/

/-- Claim-side minimum of a list of similarities (the genuine minimum
for a non-empty list; `d` only for the empty list). -/
def listMinD (d : ℚ) : List ℚ → ℚ
  | [] => d
  | x :: xs => xs.foldl min x

/-- Claim-side maximum of a list of similarities. -/
def listMaxD (d : ℚ) : List ℚ → ℚ
  | [] => d
  | x :: xs => xs.foldl max x

/-- The claim-side chunk numbering: consecutive zero-based indices in
emission order over an already-filtered list of chunk texts. -/
def indexedFrom : Nat → List Str → List TextChunk
  | _, [] => []
  | n, t :: ts => ⟨t, n⟩ :: indexedFrom (n + 1) ts

/-- Substring containment, via `findSub`. -/
def hasSub (pat l : Str) : Bool := (findSub pat l).isSome

/-- A fenced code block containing a newline. -/
def blkC6 : Str := "```x\ny```".toList

/-- A 2001-character text whose only code block sits beyond the
2000-character sentence cap. -/
def cexC6 : Str := List.replicate 1991 'a' ++ ' ' :: blkC6

/-- The first newline-split line of `cexC6`. -/
def l1C6 : Str := List.replicate 1991 'a' ++ ' ' :: "```x".toList

/-! ## C8, C10: totality of the cosine-similarity utility -/

/-- C8: for every pair of embedding vectors of unequal length (and for
empty vectors), `cosineSimilarity` returns exactly 0 — the mismatch is
absorbed by the leading guard, so a malformed vector can never abort a
batch comparison. -/
theorem cosine_mismatched_eq_zero (O : FloatOps) (v1 v2 : List ℚ)
    (h : v1.length ≠ v2.length ∨ v1.length = 0) :
    cosineSimilarity O v1 v2 = 0 := by
  unfold cosineSimilarity
  rw [if_pos h]

theorem cosine_mismatched_eq_zero_witness :
    cosineSimilarity ⟨fun q => q, fun q => q⟩ [1] [1, 2] = 0 ∧
      cosineSimilarity ⟨fun q => q, fun q => q⟩ [] [] = 0 :=
  ⟨cosine_mismatched_eq_zero _ [1] [1, 2] (Or.inl (by decide)),
   cosine_mismatched_eq_zero _ [] [] (Or.inr rfl)⟩

/-- C10: for equal-length vectors with at least one zero-norm side (sum
of squares 0, e.g. the all-zero vector), `cosineSimilarity` returns
exactly 0 (given the real-sqrt fact `sqrt 0 = 0`); moreover, on any
input the function either returns 0 through one of its guards or
divides by a provably nonzero denominator, so it is total. -/
theorem cosine_zero_norm_eq_zero (O : FloatOps) (v1 v2 : List ℚ)
    (hsq : O.sqrt 0 = 0) (hlen : v1.length = v2.length)
    (hz : sumSq v1 = 0 ∨ sumSq v2 = 0) :
    cosineSimilarity O v1 v2 = 0 ∧
      ∀ w1 w2 : List ℚ, cosineSimilarity O w1 w2 = 0 ∨
        (O.sqrt (sumSq w1) * O.sqrt (sumSq w2) ≠ 0 ∧
          cosineSimilarity O w1 w2
            = dotL w1 w2 / (O.sqrt (sumSq w1) * O.sqrt (sumSq w2))) := by
  constructor
  · unfold cosineSimilarity
    by_cases h0 : v1.length ≠ v2.length ∨ v1.length = 0
    · rw [if_pos h0]
    · rw [if_neg h0, if_pos]
      rcases hz with h | h <;> rw [h, hsq] <;> ring
  · intro w1 w2
    unfold cosineSimilarity
    by_cases h0 : w1.length ≠ w2.length ∨ w1.length = 0
    · left; rw [if_pos h0]
    · by_cases hd : O.sqrt (sumSq w1) * O.sqrt (sumSq w2) = 0
      · left; rw [if_neg h0, if_pos hd]
      · right; exact ⟨hd, by rw [if_neg h0, if_neg hd]⟩

theorem cosine_zero_norm_eq_zero_witness :
    cosineSimilarity ⟨fun _ => 0, fun _ => 1⟩ [0, 0] [3, 4] = 0 :=
  (cosine_zero_norm_eq_zero ⟨fun _ => 0, fun _ => 1⟩ [0, 0] [3, 4] rfl rfl
    (Or.inl (by norm_num [sumSq]))).1

/-! ## C4: dense-only fallback of the ranking entry point -/

/-- C4: whenever the keyword stage does not contribute (keyword search
disabled, blank query, zero weight, or the keyword call failing), a
valid-limit `searchDocs` succeeds and returns the dense candidates in
their original order, truncated to the requested limit. -/
theorem searchDocs_dense_fallback (ftsEnabled : Bool) (w : ℚ) (query : Str)
    (limitParam : Option Nat) (vr : List DocChunkR) (ftsOutcome : Option (List FtsResult))
    (h1 : 1 ≤ limitParam.getD 10) (h2 : limitParam.getD 10 ≤ 20)
    (hskip : ftsEnabled = false ∨ trimChars query = [] ∨ w = 0 ∨ ftsOutcome = none) :
    searchDocs ftsEnabled w query limitParam vr ftsOutcome
      = Except.ok (vr.take (limitParam.getD 10)) := by
  unfold searchDocs
  rw [if_neg (by push_neg; omega)]
  by_cases hc : ftsEnabled = true ∧ 0 < (trimChars query).length ∧ 0 < w
  · rcases hskip with h | h | h | h
    · rw [h] at hc; simp at hc
    · rw [h] at hc; simp at hc
    · rw [h] at hc; simp at hc
    · rw [if_pos hc, h]
  · rw [if_neg hc]

theorem searchDocs_dense_fallback_witness :
    searchDocs true 0 ("query".toList) (some 3)
        [⟨['a'], 0, 1⟩, ⟨['a'], 1, 2⟩] (some [⟨['a'], 0, 5⟩])
      = Except.ok [⟨['a'], 0, 1⟩, ⟨['a'], 1, 2⟩] :=
  searchDocs_dense_fallback true 0 ("query".toList) (some 3)
    [⟨['a'], 0, 1⟩, ⟨['a'], 1, 2⟩] (some [⟨['a'], 0, 5⟩])
    (by decide) (by decide) (Or.inr (Or.inr (Or.inl rfl)))

/-! ## C7: relevance-cliff truncation -/

theorem gapsOf_nil_of_short (results : List DocChunkR) (h : results.length ≤ 1) :
    gapsOf results = [] := by
  match results with
  | [] => rfl
  | [_] => rfl
  | _ :: _ :: _ => simp at h

/-- C7: `applyGrouping` truncates at the first boundary in "similar"
(tight) mode and at the second boundary in "related" (loose) mode,
keeps everything in loose mode with fewer than two boundaries, and
returns the input unchanged with at most one candidate or with no
boundary above the `mean + 1.5 * stddev` gap threshold. -/
theorem applyGrouping_cases (O : FloatOps) (results : List DocChunkR) :
    (results.length ≤ 1 → ∀ mode, applyGrouping O results mode = results)
    ∧ (boundariesOf O results = [] → ∀ mode, applyGrouping O results mode = results)
    ∧ (∀ b bs, boundariesOf O results = b :: bs →
        applyGrouping O results GroupingMode.similar = results.take b)
    ∧ (∀ b, boundariesOf O results = [b] →
        applyGrouping O results GroupingMode.related = results)
    ∧ (∀ b0 b1 bs, boundariesOf O results = b0 :: b1 :: bs →
        applyGrouping O results GroupingMode.related = results.take b1) := by
  refine ⟨?_, ?_, ?_, ?_, ?_⟩
  · intro h mode
    unfold applyGrouping
    rw [if_pos h]
  · intro hb mode
    unfold applyGrouping
    by_cases h1 : results.length ≤ 1
    · rw [if_pos h1]
    · rw [if_neg h1]
      by_cases hg : (gapsOf results).length = 0
      · rw [if_pos hg]
      · rw [if_neg hg, if_pos (by rw [hb]; rfl)]
  · intro b bs hb
    unfold applyGrouping
    by_cases h1 : results.length ≤ 1
    · exfalso
      have : gapsOf results = [] := gapsOf_nil_of_short results h1
      unfold boundariesOf at hb
      unfold gapsOf at this hb
      rw [this] at hb
      simp at hb
    · rw [if_neg h1]
      by_cases hg : (gapsOf results).length = 0
      · exfalso
        have : gapsOf results = [] := List.length_eq_zero.mp hg
        unfold boundariesOf at hb
        unfold gapsOf at this hb
        rw [this] at hb
        simp at hb
      · rw [if_neg hg, if_neg (by rw [hb]; simp), if_neg (by rw [hb]; simp [boundaryIndexOf])]
        rw [hb]
        rfl
  · intro b hb
    unfold applyGrouping
    by_cases h1 : results.length ≤ 1
    · rw [if_pos h1]
    · rw [if_neg h1]
      by_cases hg : (gapsOf results).length = 0
      · rw [if_pos hg]
      · rw [if_neg hg, if_neg (by rw [hb]; simp),
          if_pos (by rw [hb]; simp [boundaryIndexOf]), if_pos rfl]
  · intro b0 b1 bs hb
    unfold applyGrouping
    by_cases h1 : results.length ≤ 1
    · exfalso
      have : gapsOf results = [] := gapsOf_nil_of_short results h1
      unfold boundariesOf at hb
      unfold gapsOf at this hb
      rw [this] at hb
      simp at hb
    · rw [if_neg h1]
      by_cases hg : (gapsOf results).length = 0
      · exfalso
        have : gapsOf results = [] := List.length_eq_zero.mp hg
        unfold boundariesOf at hb
        unfold gapsOf at this hb
        rw [this] at hb
        simp at hb
      · rw [if_neg hg, if_neg (by rw [hb]; simp),
          if_neg (by rw [hb]; simp [boundaryIndexOf]), hb]
        rfl

theorem applyGrouping_cases_witness :
    applyGrouping ⟨fun q => if q = 4/25 then 2/5 else 0, fun _ => 1⟩
        [⟨['a'], 0, 0⟩, ⟨['a'], 1, 0⟩, ⟨['a'], 2, 0⟩, ⟨['a'], 3, 0⟩, ⟨['a'], 4, 0⟩,
          ⟨['a'], 5, 1⟩] GroupingMode.similar
      = [⟨['a'], 0, 0⟩, ⟨['a'], 1, 0⟩, ⟨['a'], 2, 0⟩, ⟨['a'], 3, 0⟩, ⟨['a'], 4, 0⟩] :=
  (applyGrouping_cases ⟨fun q => if q = 4/25 then 2/5 else 0, fun _ => 1⟩
    [⟨['a'], 0, 0⟩, ⟨['a'], 1, 0⟩, ⟨['a'], 2, 0⟩, ⟨['a'], 3, 0⟩, ⟨['a'], 4, 0⟩,
      ⟨['a'], 5, 1⟩]).2.2.1 5 []
    (by norm_num [boundariesOf, gapsOf, gapsAux, gapThreshold, gapMean, gapVariance,
      GROUPING_BOUNDARY_STD_MULTIPLIER, List.filter])

/-! ## C3: keyword boost formula and bounds -/

theorem le_foldl_maxstep (l : List FtsResult) (init : ℚ) :
    init ≤ l.foldl (fun m r => if m < r.score then r.score else m) init := by
  induction l generalizing init with
  | nil => exact le_refl _
  | cons r t ih =>
    rw [List.foldl_cons]
    refine le_trans ?_ (ih _)
    by_cases h : init < r.score
    · rw [if_pos h]; exact le_of_lt h
    · rw [if_neg h]

theorem score_le_foldl_maxstep (l : List FtsResult) (init : ℚ) (r : FtsResult) (hr : r ∈ l) :
    r.score ≤ l.foldl (fun m s => if m < s.score then s.score else m) init := by
  induction l generalizing init with
  | nil => cases hr
  | cons a t ih =>
    rw [List.foldl_cons]
    rcases List.mem_cons.mp hr with rfl | hmem
    · refine le_trans ?_ (le_foldl_maxstep t _)
      by_cases h : init < r.score
      · rw [if_pos h]
      · rw [if_neg h]; exact le_of_not_lt h
    · exact ih _ hmem

theorem score_le_maxBm25 (fts : List FtsResult) (r : FtsResult) (hr : r ∈ fts) :
    r.score ≤ maxBm25Score fts :=
  score_le_foldl_maxstep fts 0 r hr

theorem mem_mapSet (m : List (Str × ℚ)) (k : Str) (v : ℚ) (p : Str × ℚ)
    (hp : p ∈ mapSet m k v) : p = (k, v) ∨ p ∈ m := by
  unfold mapSet at hp
  by_cases h : m.any (fun q => q.1 == k)
  · rw [if_pos h] at hp
    rcases List.mem_map.mp hp with ⟨q, hq, hqe⟩
    by_cases h2 : q.1 == k
    · left; rw [if_pos h2] at hqe; exact hqe.symm
    · right; rw [if_neg h2] at hqe; exact hqe ▸ hq
  · rw [if_neg h] at hp
    rcases List.mem_append.mp hp with h2 | h2
    · right; exact h2
    · left; simpa using h2

theorem mem_foldl_mapSet (key : FtsResult → Str) (val : FtsResult → ℚ) (l : List FtsResult)
    (m0 : List (Str × ℚ)) (p : Str × ℚ)
    (hp : p ∈ l.foldl (fun m r => mapSet m (key r) (val r)) m0) :
    p ∈ m0 ∨ ∃ r ∈ l, p = (key r, val r) := by
  induction l generalizing m0 with
  | nil => exact Or.inl hp
  | cons a t ih =>
    rw [List.foldl_cons] at hp
    rcases ih _ hp with hmem | ⟨r, hr, hpe⟩
    · rcases mem_mapSet _ _ _ _ hmem with hpe | hmem2
      · right; exact ⟨a, List.mem_cons_self a t, hpe⟩
      · left; exact hmem2
    · right; exact ⟨r, List.mem_cons_of_mem a hr, hpe⟩

theorem mem_ftsScoreMap (fts : List FtsResult) (p : Str × ℚ) (hp : p ∈ ftsScoreMap fts) :
    ∃ r ∈ fts, p = (chunkKey r.filePath r.chunkIndex,
      if 0 < maxBm25Score fts then r.score / maxBm25Score fts else 0) := by
  unfold ftsScoreMap at hp
  rcases mem_foldl_mapSet _ _ fts [] p hp with h | h
  · cases h
  · exact h

theorem lookupScore_absent (fts : List FtsResult) (k : Str)
    (h : ∀ r ∈ fts, chunkKey r.filePath r.chunkIndex ≠ k) :
    lookupScore (ftsScoreMap fts) k = 0 := by
  unfold lookupScore
  cases hf : (ftsScoreMap fts).find? (fun p => p.1 == k) with
  | none => rfl
  | some p =>
    exfalso
    have hpm : p ∈ ftsScoreMap fts := List.mem_of_find?_eq_some hf
    have hpk : p.1 = k := by simpa using List.find?_some hf
    rcases mem_ftsScoreMap fts p hpm with ⟨r, hr, hpe⟩
    have h1 : p.1 = chunkKey r.filePath r.chunkIndex := by rw [hpe]
    exact h r hr (h1 ▸ hpk)

theorem lookupScore_bounds (fts : List FtsResult) (k : Str) (hs : ∀ r ∈ fts, 0 ≤ r.score) :
    0 ≤ lookupScore (ftsScoreMap fts) k ∧ lookupScore (ftsScoreMap fts) k ≤ 1 := by
  unfold lookupScore
  cases hf : (ftsScoreMap fts).find? (fun p => p.1 == k) with
  | none => exact ⟨le_refl 0, by norm_num⟩
  | some p =>
    show 0 ≤ p.2 ∧ p.2 ≤ 1
    have hpm : p ∈ ftsScoreMap fts := List.mem_of_find?_eq_some hf
    rcases mem_ftsScoreMap fts p hpm with ⟨r, hr, hpe⟩
    have h2 : p.2 = if 0 < maxBm25Score fts then r.score / maxBm25Score fts else 0 := by
      rw [hpe]
    rw [h2]
    by_cases hm : 0 < maxBm25Score fts
    · rw [if_pos hm]
      exact ⟨div_nonneg (hs r hr) (le_of_lt hm),
        (div_le_one hm).mpr (score_le_maxBm25 fts r hr)⟩
    · rw [if_neg hm]; norm_num

/-- C3: the fused score of a dense candidate is `d / (1 + s*w)` where `s`
is its normalized keyword score (0 when absent from the keyword
results); `s` lies in `[0,1]` for non-negative raw scores, a perfect
match with weight 1 exactly halves the distance, an absent candidate is
unchanged, and for `d ≥ 0` and `w ∈ [0,1]` the boosted distance is
never negative and never greater than the original; every entry of the
`applyKeywordBoost` output is such a boosted candidate. -/
theorem keywordBoost_formula (vr : List DocChunkR) (fts : List FtsResult) (w : ℚ)
    (r : DocChunkR) (hw0 : 0 ≤ w) (hw1 : w ≤ 1) (hd : 0 ≤ r.distance)
    (hs : ∀ f ∈ fts, 0 ≤ f.score) :
    (boostOne fts w r).distance
        = r.distance
          / (1 + lookupScore (ftsScoreMap fts) (chunkKey r.filePath r.chunkIndex) * w)
    ∧ (0 ≤ lookupScore (ftsScoreMap fts) (chunkKey r.filePath r.chunkIndex)
        ∧ lookupScore (ftsScoreMap fts) (chunkKey r.filePath r.chunkIndex) ≤ 1)
    ∧ (lookupScore (ftsScoreMap fts) (chunkKey r.filePath r.chunkIndex) = 1 → w = 1 →
        (boostOne fts w r).distance = r.distance / 2)
    ∧ ((∀ f ∈ fts, chunkKey f.filePath f.chunkIndex ≠ chunkKey r.filePath r.chunkIndex) →
        (boostOne fts w r).distance = r.distance)
    ∧ (0 ≤ (boostOne fts w r).distance ∧ (boostOne fts w r).distance ≤ r.distance)
    ∧ ∀ c ∈ applyKeywordBoost vr fts w, ∃ v ∈ vr, c = boostOne fts w v := by
  have hb := lookupScore_bounds fts (chunkKey r.filePath r.chunkIndex) hs
  refine ⟨rfl, hb, ?_, ?_, ⟨?_, ?_⟩, ?_⟩
  · intro h1 hw
    show r.distance / (1 + _ * w) = r.distance / 2
    rw [h1, hw]; norm_num
  · intro habs
    show r.distance / (1 + _ * w) = r.distance
    rw [lookupScore_absent fts _ habs]; norm_num
  · exact div_nonneg hd (by nlinarith [hb.1, hb.2])
  · exact div_le_self hd (by nlinarith [hb.1, hb.2])
  · intro c hc
    have hmem : c ∈ vr.map (boostOne fts w) :=
      (List.mergeSort_perm (vr.map (boostOne fts w)) _).mem_iff.mp hc
    rcases List.mem_map.mp hmem with ⟨v, hv, hve⟩
    exact ⟨v, hv, hve.symm⟩

theorem keywordBoost_formula_witness :
    (boostOne [⟨['k'], 1, 10⟩] 1 ⟨['k'], 1, 4⟩).distance
      = (⟨['k'], 1, 4⟩ : DocChunkR).distance / 2 :=
  (keywordBoost_formula [] [⟨['k'], 1, 10⟩] 1 ⟨['k'], 1, 4⟩ (by norm_num) (by norm_num)
    (by norm_num) (by intro f hf; simp at hf; rw [hf]; norm_num)).2.2.1
    (by norm_num [lookupScore, ftsScoreMap, mapSet, maxBm25Score, chunkKey, List.find?])
    rfl

/-! ## C2: partition invariant of the grouping loop -/

theorem splitIntoSentences_ne_nil (text : Str) (s : Str) (hs : s ∈ splitIntoSentences text) :
    s ≠ [] := by
  unfold splitIntoSentences at hs
  by_cases h : (trimChars text).length = 0
  · rw [if_pos h] at hs; cases hs
  · rw [if_neg h] at hs
    have := (List.mem_filter.mp hs).2
    intro he
    rw [he] at this
    simp at this

theorem groupLoop_flatten (O : FloatOps) (cfg : ChunkerConfig) (pairs : List (Str × List ℚ))
    (cur : List Str) (curE : List (List ℚ)) :
    (groupLoop O cfg pairs cur curE).flatten = cur ++ pairs.map Prod.fst := by
  induction pairs generalizing cur curE with
  | nil =>
    by_cases h : cur.length ≠ 0
    · simp [groupLoop, h]
    · simp only [not_not] at h
      have hc : cur = [] := List.length_eq_zero.mp h
      simp [groupLoop, hc]
  | cons p rest ih =>
    obtain ⟨s, e⟩ := p
    simp only [groupLoop]
    by_cases h0 : cur.length = 0
    · rw [if_pos h0]
      have hc : cur = [] := List.length_eq_zero.mp h0
      rw [ih, hc]
      simp
    · rw [if_neg h0]
      by_cases h1 : cur.length = 1
      · rw [if_pos h1]
        by_cases h2 : cfg.hardThreshold < cfg.initConst * cosineSimilarity O (curE.headD []) e
        · rw [if_pos h2, ih]; simp
        · rw [if_neg h2]; simp [ih]
      · rw [if_neg h1]
        by_cases h3 : MAX_SENTENCES ≤ cur.length
        · rw [if_pos h3]; simp [ih]
        · rw [if_neg h3]
          by_cases h4 : shouldAddToChunk O cfg e curE = true
          · rw [if_pos h4, ih]; simp
          · rw [if_neg h4]; simp [ih]

/-- C2: with a conforming embedder (one embedding per sentence), the
sentence groups produced by the chunker on the segmenter's output,
concatenated in order, reproduce every sentence exactly once in the
original order — nothing is duplicated, reordered or dropped. -/
theorem groups_partition_sentences (O : FloatOps) (cfg : ChunkerConfig) (text : Str)
    (embs : List (List ℚ)) (hlen : embs.length = (splitIntoSentences text).length) :
    (groupSentences O cfg (splitIntoSentences text) embs).flatten
      = splitIntoSentences text := by
  unfold groupSentences
  by_cases h0 : (splitIntoSentences text).length = 0
  · rw [if_pos h0]
    exact (List.length_eq_zero.mp h0).symm
  · rw [if_neg h0]
    by_cases h1 : (splitIntoSentences text).length = 1
    · rw [if_pos h1]
      match hm : splitIntoSentences text with
      | [s] => simp
      | [] => rw [hm] at h1; simp at h1
      | a :: b :: t => rw [hm] at h1; simp at h1
    · rw [if_neg h1]
      rw [groupLoop_flatten]
      have hfil : ((splitIntoSentences text).zip embs).filter (fun p => !p.1.isEmpty)
          = (splitIntoSentences text).zip embs := by
        apply List.filter_eq_self.mpr
        intro p hp
        have hmem := (List.mem_zip hp).1
        have := splitIntoSentences_ne_nil text p.1 hmem
        simpa [List.isEmpty_iff] using this
      rw [hfil, List.nil_append, List.map_fst_zip]
      omega

theorem groups_partition_sentences_witness :
    (groupSentences ⟨fun q => if q ≤ 0 then 0 else 1, fun _ => 1⟩ DEFAULT_CHUNKER_CONFIG
        (splitIntoSentences ("Hi. Bye.".toList)) [[1], [1]]).flatten
      = splitIntoSentences ("Hi. Bye.".toList) :=
  groups_partition_sentences ⟨fun q => if q ≤ 0 then 0 else 1, fun _ => 1⟩
    DEFAULT_CHUNKER_CONFIG ("Hi. Bye.".toList) [[1], [1]] (by decide)

/-! ## C9: chunk filtering and index assignment -/

theorem chunksLoop_eq_indexedFrom (cfg : ChunkerConfig) (groups : List (List Str)) (n : Nat) :
    chunksLoop cfg groups n
      = indexedFrom n ((groups.map joinSp).filter
          (fun t => decide (cfg.minChunkLength ≤ t.length ∧ isGarbageChunk t = false))) := by
  induction groups generalizing n with
  | nil => rfl
  | cons g gs ih =>
    simp only [chunksLoop, List.map_cons]
    by_cases h : cfg.minChunkLength ≤ (joinSp g).length ∧ isGarbageChunk (joinSp g) = false
    · rw [if_pos h, List.filter_cons_of_pos (by simpa using h)]
      rw [ih]
      rfl
    · rw [if_neg h, List.filter_cons_of_neg (by simpa using h)]
      exact ih n

/-- C9: the chunker discards exactly the groups whose joined text is
shorter than `minChunkLength` or garbage, and numbers the surviving
chunks consecutively from zero in emission order (indices freed by
discarded chunks are not reused). -/
theorem chunk_index_assignment (O : FloatOps) (cfg : ChunkerConfig)
    (embedBatch : List Str → List (List ℚ)) (text : Str) :
    chunkText O cfg embedBatch text
      = indexedFrom 0
          (((groupSentences O cfg (splitIntoSentences text)
                (embedBatch (splitIntoSentences text))).map joinSp).filter
            (fun t => decide (cfg.minChunkLength ≤ t.length ∧ isGarbageChunk t = false))) := by
  unfold chunkText
  by_cases h0 : (trimChars text).length = 0
  · rw [if_pos h0]
    have hs : splitIntoSentences text = [] := by
      unfold splitIntoSentences
      rw [if_pos h0]
    rw [hs]
    rfl
  · rw [if_neg h0]
    by_cases h1 : (splitIntoSentences text).length = 0
    · have hs : splitIntoSentences text = [] := List.length_eq_zero.mp h1
      rw [if_pos h1, hs]
      rfl
    · rw [if_neg h1]
      exact chunksLoop_eq_indexedFrom cfg _ 0

/-! ## C1: the Max-Min acceptance rule -/

theorem pairSims_ne_nil (O : FloatOps) (l : List (List ℚ)) (h : 2 ≤ l.length) :
    pairSims O l ≠ [] := by
  match l with
  | [] => simp at h
  | [_] => simp at h
  | a :: b :: t =>
    show (b :: t).map (cosineSimilarity O a) ++ pairSims O (b :: t) ≠ []
    simp

theorem foldl_min_sentinel (l : List ℚ) (c : ℚ) (hne : l ≠ [])
    (hub : ∀ v ∈ l, v ≤ c) : l.foldl min c = listMinD c l := by
  match l with
  | [] => exact absurd rfl hne
  | x :: xs =>
    show (x :: xs).foldl min c = xs.foldl min x
    rw [List.foldl_cons, min_eq_right (hub x (List.mem_cons_self x xs))]

theorem foldl_max_sentinel (l : List ℚ) (c : ℚ) (hne : l ≠ [])
    (hlb : ∀ v ∈ l, c ≤ v) : l.foldl max c = listMaxD c l := by
  match l with
  | [] => exact absurd rfl hne
  | x :: xs =>
    show (x :: xs).foldl max c = xs.foldl max x
    rw [List.foldl_cons, max_eq_right (hlb x (List.mem_cons_self x xs))]

/-- C1: a candidate considered against a group of at least two members
is accepted exactly when `maxSim > max(c * minSim * sigmoid(groupSize),
hardThreshold)`, with `minSim` the true minimum pairwise similarity of
the trailing five-embedding window and `maxSim` the true maximum
similarity of the candidate against every member (given that cosines
lie in `[-1, 1]`); and, end to end, five sentences embedded as
`[A, A, A, B, B]` with `A`, `B` orthogonal unit vectors are grouped
under the default configuration into exactly `[A, A, A]` and `[B, B]`. -/
theorem maxmin_acceptance_rule (O : FloatOps) (cfg : ChunkerConfig) (e : List ℚ)
    (g : List (List ℚ)) (h2 : 2 ≤ g.length)
    (hub : ∀ v ∈ pairSims O (g.drop (g.length - WINDOW_SIZE)), v ≤ 1)
    (hlb : ∀ m ∈ g, -1 ≤ cosineSimilarity O e m)
    (hsq : O.sqrt 1 = 1) (hexp : ∀ x : ℚ, 0 < O.exp x) :
    (shouldAddToChunk O cfg e g = true ↔
      max (cfg.c * listMinD 1 (pairSims O (g.drop (g.length - WINDOW_SIZE)))
            * sigmoid O (g.length : ℚ)) cfg.hardThreshold
        < listMaxD (-1) (g.map (cosineSimilarity O e)))
    ∧ groupSentences O DEFAULT_CHUNKER_CONFIG [['u'], ['v'], ['w'], ['x'], ['y']]
        [[1, 0], [1, 0], [1, 0], [0, 1], [0, 1]]
      = [[['u'], ['v'], ['w']], [['x'], ['y']]] := by
  have hTh : DEFAULT_CHUNKER_CONFIG.hardThreshold = 6/10 := rfl
  have hIc : DEFAULT_CHUNKER_CONFIG.initConst = 3/2 := rfl
  have hCc : DEFAULT_CHUNKER_CONFIG.c = 9/10 := rfl
  have hAA : cosineSimilarity O [1, 0] [1, 0] = 1 := by
    unfold cosineSimilarity
    rw [if_neg (by norm_num)]
    have hs : sumSq [1, 0] = 1 := by norm_num [sumSq]
    rw [hs, hsq, if_neg (by norm_num)]
    norm_num [dotL]
  have hBB : cosineSimilarity O [0, 1] [0, 1] = 1 := by
    unfold cosineSimilarity
    rw [if_neg (by norm_num)]
    have hs : sumSq [0, 1] = 1 := by norm_num [sumSq]
    rw [hs, hsq, if_neg (by norm_num)]
    norm_num [dotL]
  have hBA : cosineSimilarity O [0, 1] [1, 0] = 0 := by
    unfold cosineSimilarity
    rw [if_neg (by norm_num)]
    have hs1 : sumSq [0, 1] = 1 := by norm_num [sumSq]
    have hs2 : sumSq [1, 0] = 1 := by norm_num [sumSq]
    rw [hs1, hs2, hsq, if_neg (by norm_num)]
    norm_num [dotL]
  constructor
  · have hwin : 2 ≤ (g.drop (g.length - WINDOW_SIZE)).length := by
      rw [List.length_drop]
      have hw : WINDOW_SIZE = 5 := rfl
      omega
    have hminEq : getMinSimilarity O g
        = listMinD 1 (pairSims O (g.drop (g.length - WINDOW_SIZE))) := by
      unfold getMinSimilarity
      rw [if_neg (by omega)]
      exact foldl_min_sentinel _ 1 (pairSims_ne_nil O _ hwin) hub
    have hmaxEq : getMaxSimilarity O e g = listMaxD (-1) (g.map (cosineSimilarity O e)) := by
      unfold getMaxSimilarity
      refine foldl_max_sentinel _ (-1) ?_ ?_
      · match g with
        | [] => simp at h2
        | a :: t => simp
      · intro v hv
        rcases List.mem_map.mp hv with ⟨m, hm, hme⟩
        exact hme ▸ hlb m hm
    unfold shouldAddToChunk calculateThreshold
    rw [hminEq, hmaxEq, decide_eq_true_iff]
  · have ht2 := hexp (-(2 : ℚ))
    have hsig2pos : 0 < 1 + O.exp (-(2 : ℚ)) := by linarith
    have hadd3 : shouldAddToChunk O DEFAULT_CHUNKER_CONFIG [1, 0] [[1, 0], [1, 0]] = true := by
      unfold shouldAddToChunk calculateThreshold getMinSimilarity getMaxSimilarity
      rw [decide_eq_true_iff, if_neg (by norm_num)]
      have hp : pairSims O (([[1, 0], [1, 0]] : List (List ℚ)).drop
          (([[1, 0], [1, 0]] : List (List ℚ)).length - WINDOW_SIZE)) = [1] := by
        show [cosineSimilarity O [1, 0] [1, 0]] ++ [] = [1]
        rw [hAA]
        rfl
      rw [hp]
      have hm : (([[1, 0], [1, 0]] : List (List ℚ)).map
          (cosineSimilarity O [1, 0])).foldl max (-1) = 1 := by
        simp [hAA]
      rw [hm]
      have hf : ([(1 : ℚ)].foldl min 1) = 1 := by simp
      rw [hf]
      apply max_lt
      · show DEFAULT_CHUNKER_CONFIG.c * 1
            * sigmoid O ((([[1, 0], [1, 0]] : List (List ℚ)).length : ℚ)) < 1
        have hlen2 : ((([[1, 0], [1, 0]] : List (List ℚ)).length : ℚ)) = (2 : ℚ) := by
          norm_num
        rw [hCc, hlen2]
        unfold sigmoid
        have hinv : 1 / (1 + O.exp (-(2 : ℚ))) ≤ 1 := by
          rw [div_le_one hsig2pos]
          linarith
        have hinvpos : 0 < 1 / (1 + O.exp (-(2 : ℚ))) := by positivity
        nlinarith
      · rw [hTh]; norm_num
    have hadd4 : shouldAddToChunk O DEFAULT_CHUNKER_CONFIG [0, 1]
        [[1, 0], [1, 0], [1, 0]] = false := by
      unfold shouldAddToChunk calculateThreshold getMinSimilarity getMaxSimilarity
      rw [decide_eq_false_iff_not]
      intro hcon
      have hm : (([[1, 0], [1, 0], [1, 0]] : List (List ℚ)).map
          (cosineSimilarity O [0, 1])).foldl max (-1) = 0 := by
        simp [hBA]
      rw [hm] at hcon
      have hge := le_max_right (DEFAULT_CHUNKER_CONFIG.c
          * (if (([[1, 0], [1, 0], [1, 0]] : List (List ℚ)).length) < 2 then 1
             else (pairSims O (([[1, 0], [1, 0], [1, 0]] : List (List ℚ)).drop
                (([[1, 0], [1, 0], [1, 0]] : List (List ℚ)).length - WINDOW_SIZE))).foldl
                min 1)
          * sigmoid O ((([[1, 0], [1, 0], [1, 0]] : List (List ℚ)).length : ℚ)))
        DEFAULT_CHUNKER_CONFIG.hardThreshold
      have hlt : DEFAULT_CHUNKER_CONFIG.hardThreshold < (0 : ℚ) := lt_of_le_of_lt hge hcon
      rw [hTh] at hlt
      norm_num at hlt
    unfold groupSentences
    rw [if_neg (by norm_num), if_neg (by norm_num)]
    norm_num [groupLoop, hadd3, hadd4, hAA, hBB, hTh, hIc, MAX_SENTENCES]

theorem maxmin_acceptance_rule_witness :
    (shouldAddToChunk ⟨fun q => if q ≤ 0 then 0 else 1, fun _ => 1⟩ DEFAULT_CHUNKER_CONFIG
        [1, 0] [[1, 0], [0, 1]] = true ↔
      max (DEFAULT_CHUNKER_CONFIG.c
            * listMinD 1 (pairSims ⟨fun q => if q ≤ 0 then 0 else 1, fun _ => 1⟩
                (([[1, 0], [0, 1]] : List (List ℚ)).drop
                  (([[1, 0], [0, 1]] : List (List ℚ)).length - WINDOW_SIZE)))
            * sigmoid ⟨fun q => if q ≤ 0 then 0 else 1, fun _ => 1⟩
                ((([[1, 0], [0, 1]] : List (List ℚ)).length : ℚ)))
          DEFAULT_CHUNKER_CONFIG.hardThreshold
        < listMaxD (-1) (([[1, 0], [0, 1]] : List (List ℚ)).map
            (cosineSimilarity ⟨fun q => if q ≤ 0 then 0 else 1, fun _ => 1⟩ [1, 0])))
    ∧ groupSentences ⟨fun q => if q ≤ 0 then 0 else 1, fun _ => 1⟩ DEFAULT_CHUNKER_CONFIG
        [['u'], ['v'], ['w'], ['x'], ['y']] [[1, 0], [1, 0], [1, 0], [0, 1], [0, 1]]
      = [[['u'], ['v'], ['w']], [['x'], ['y']]] := by
  refine maxmin_acceptance_rule ⟨fun q => if q ≤ 0 then 0 else 1, fun _ => 1⟩
    DEFAULT_CHUNKER_CONFIG [1, 0] [[1, 0], [0, 1]] (by norm_num) ?_ ?_ (by norm_num) ?_
  · intro v hv
    simp only [pairSims, List.map_cons, List.map_nil, List.append_nil, List.drop] at hv
    rcases List.mem_singleton.mp hv with rfl
    unfold cosineSimilarity
    norm_num [sumSq, dotL]
  · intro m hm
    rcases (by simpa using hm : m = [1, 0] ∨ m = [0, 1]) with rfl | rfl <;>
      (unfold cosineSimilarity; norm_num [sumSq, dotL])
  · intro x
    norm_num

/-! ## String-pipeline lemmas for the sentence-length and code-block claims -/

theorem dropWhile_eq_self_head? (p : Char → Bool) (l : Str)
    (h : ∀ c, l.head? = some c → p c = false) : l.dropWhile p = l := by
  cases l with
  | nil => rfl
  | cons c rest => rw [List.dropWhile_cons, if_neg (by simp [h c rfl])]

theorem trimChars_eq_self (s : Str)
    (h1 : ∀ c, s.head? = some c → isWsChar c = false)
    (h2 : ∀ c, s.getLast? = some c → isWsChar c = false) : trimChars s = s := by
  unfold trimChars
  rw [dropWhile_eq_self_head? _ s h1,
    dropWhile_eq_self_head? _ s.reverse
      (fun c hc => h2 c (by rwa [List.head?_reverse] at hc)),
    List.reverse_reverse]

theorem trimChars_length_le (s : Str) : (trimChars s).length ≤ s.length := by
  unfold trimChars
  rw [List.length_reverse]
  refine le_trans (List.Sublist.length_le (List.dropWhile_sublist _)) ?_
  rw [List.length_reverse]
  exact List.Sublist.length_le (List.dropWhile_sublist _)

theorem mem_trimChars (s : Str) (c : Char) (hc : c ∈ trimChars s) : c ∈ s := by
  unfold trimChars at hc
  rw [List.mem_reverse] at hc
  have h1 := (List.dropWhile_sublist isWsChar).mem hc
  rw [List.mem_reverse] at h1
  exact (List.dropWhile_sublist isWsChar).mem h1

theorem head?_replicate_of_ne (n : ℕ) (a : Char) (h : n ≠ 0) :
    (List.replicate n a).head? = some a := by
  cases n with
  | zero => exact absurd rfl h
  | succ m => rw [List.replicate_succ]; rfl

theorem getLast?_replicate_of_ne (n : ℕ) (a : Char) (h : n ≠ 0) :
    (List.replicate n a).getLast? = some a := by
  rw [← List.head?_reverse, List.reverse_replicate]
  exact head?_replicate_of_ne n a h

theorem trimChars_replicate (n : ℕ) (a : Char) (h : isWsChar a = false) :
    trimChars (List.replicate n a) = List.replicate n a := by
  refine trimChars_eq_self _ ?_ ?_
  · intro c hc
    cases n with
    | zero => cases hc
    | succ m =>
      rw [head?_replicate_of_ne _ a (Nat.succ_ne_zero m)] at hc
      cases hc
      exact h
  · intro c hc
    cases n with
    | zero => cases hc
    | succ m =>
      rw [getLast?_replicate_of_ne _ a (Nat.succ_ne_zero m)] at hc
      cases hc
      exact h

theorem splitOnChar_ne_nil (sep : Char) (l : Str) : splitOnChar sep l ≠ [] := by
  induction l with
  | nil => simp [splitOnChar]
  | cons c rest ih =>
    unfold splitOnChar
    by_cases h : (c == sep) = true
    · rw [if_pos h]; simp
    · rw [if_neg h]
      cases hsp : splitOnChar sep rest with
      | nil => simp
      | cons p ps => simp

theorem not_mem_splitOnChar (sep : Char) (l : Str) (p : Str) (hp : p ∈ splitOnChar sep l) :
    sep ∉ p := by
  induction l generalizing p with
  | nil =>
    have : p = [] := List.mem_singleton.mp hp
    rw [this]
    simp
  | cons c rest ih =>
    unfold splitOnChar at hp
    by_cases h : (c == sep) = true
    · rw [if_pos h] at hp
      rcases List.mem_cons.mp hp with rfl | hmem
      · simp
      · exact ih p hmem
    · rw [if_neg h] at hp
      cases hsp : splitOnChar sep rest with
      | nil => exact absurd hsp (splitOnChar_ne_nil sep rest)
      | cons q qs =>
        rw [hsp] at hp
        rcases List.mem_cons.mp hp with rfl | hmem
        · intro hmemsep
          rcases List.mem_cons.mp hmemsep with hh | hh
          · have hcs : c ≠ sep := by simpa using h
            exact hcs hh.symm
          · exact ih q (by rw [hsp]; exact List.mem_cons_self q qs) hh
        · exact ih p (by rw [hsp]; exact List.mem_cons_of_mem q hmem)

theorem splitOnChar_cons_ne (sep c : Char) (rest : Str) (h : (c == sep) = false) :
    splitOnChar sep (c :: rest)
      = (c :: (splitOnChar sep rest).headD []) :: (splitOnChar sep rest).tail := by
  conv_lhs => simp only [splitOnChar]
  rw [if_neg (by simp [h])]
  cases hsp : splitOnChar sep rest with
  | nil => exact absurd hsp (splitOnChar_ne_nil sep rest)
  | cons p ps => rfl

theorem splitOnChar_replicate_append (sep a : Char) (h : (a == sep) = false) (n : ℕ)
    (t : Str) :
    splitOnChar sep (List.replicate n a ++ t)
      = (List.replicate n a ++ (splitOnChar sep t).headD []) :: (splitOnChar sep t).tail := by
  induction n with
  | zero =>
    simp only [List.replicate, List.nil_append]
    cases hsp : splitOnChar sep t with
    | nil => exact absurd hsp (splitOnChar_ne_nil sep t)
    | cons p ps => rfl
  | succ m ih =>
    rw [List.replicate_succ, List.cons_append, splitOnChar_cons_ne sep a _ h, ih]
    simp

theorem scanBlocksGo_cons_skip (fuel : ℕ) (c : Char) (rest : Str)
    (h : (c == backtick) = false) :
    scanBlocksGo (fuel + 1) (c :: rest) = scanBlocksGo fuel rest := by
  have hne : c ≠ backtick := by simpa using h
  have hl : lstarts tripleTick (c :: rest) = false := by
    show (backtick == c && lstarts [backtick, backtick] rest) = false
    rw [beq_eq_false_iff_ne.mpr (Ne.symm hne)]
    rfl
  simp [scanBlocksGo, hl, h]

theorem scanBlocksGo_replicate (n fuel : ℕ) (t : Str) :
    scanBlocksGo (fuel + n) (List.replicate n 'a' ++ t) = scanBlocksGo fuel t := by
  induction n with
  | zero => rfl
  | succ m ih =>
    rw [List.replicate_succ, List.cons_append,
      show fuel + (m + 1) = (fuel + m) + 1 from rfl,
      scanBlocksGo_cons_skip _ _ _ (by decide), ih]

theorem scanPartsGo_cons_skip (fuel : ℕ) (prev : Option Char) (acc : Str) (c : Char)
    (rest : Str) (h : isPunctChar c = false) :
    scanPartsGo (fuel + 1) prev acc (c :: rest)
      = scanPartsGo fuel (some c) (c :: acc) rest := by
  simp [scanPartsGo, h]

theorem scanPartsGo_no_punct (t : Str) (fuel : ℕ) (prev : Option Char) (acc : Str)
    (h : ∀ c ∈ t, isPunctChar c = false) :
    scanPartsGo (fuel + t.length) prev acc t = [acc.reverse ++ t] := by
  induction t generalizing fuel prev acc with
  | nil => cases fuel <;> simp [scanPartsGo]
  | cons c rest ih =>
    rw [show fuel + (c :: rest).length = (fuel + rest.length) + 1 by simp [List.length_cons]; ring,
      scanPartsGo_cons_skip _ _ _ _ _ (h c (List.mem_cons_self c rest)),
      ih fuel (some c) (c :: acc) (fun d hd => h d (List.mem_cons_of_mem c hd))]
    simp

theorem splitParts_no_punct (s : Str) (h : ∀ c ∈ s, isPunctChar c = false) :
    splitParts s = [s] := by
  unfold splitParts
  rw [show s.length = 0 + s.length by omega, scanPartsGo_no_punct s 0 none [] h]
  rfl

theorem reassembleGo_single (s : Str) (htr : trimChars s = s) (hne : s ≠ [])
    (hnp : s.all isPunctChar = false) : reassembleGo [s] [] = [s] := by
  have hlz : ¬ s.length = 0 := by simpa using hne
  show (if (trimChars s).length = 0 then reassembleGo [] []
        else if (trimChars s).all isPunctChar then
          trimChars ([] ++ trimChars s) :: reassembleGo [] []
        else reassembleGo [] ([] ++ if ([] : Str).length ≠ 0 then ' ' :: trimChars s
          else trimChars s)) = [s]
  rw [htr, if_neg hlz, if_neg (by simp [hnp]), if_neg (by simp), List.nil_append]
  show (if (trimChars s).length ≠ 0 then [trimChars s] else []) = [s]
  rw [htr, if_pos hlz]

theorem commaJoinGo_single (p : Str) (htr : trimChars p = p) (hne : p ≠ []) :
    commaJoinGo [p] [] = [p] := by
  have h0 : (trimChars p).length ≠ 0 := by rw [htr]; simpa using hne
  show (if MAX_SENTENCE_LENGTH < (([] : Str) ++ p).length ∧ ([] : Str).length ≠ 0 then
          trimChars [] :: commaJoinGo [] p
        else commaJoinGo [] (([] : Str) ++ if ([] : Str).length ≠ 0 then ',' :: p else p))
      = [p]
  rw [if_neg (by simp), if_neg (by simp), List.nil_append]
  show (if (trimChars p).length ≠ 0 then [trimChars p] else []) = [p]
  rw [if_pos h0, htr]

/-- C5 counterexample: a single run of 2001 letters (no punctuation,
no newline, no comma) is returned as one sentence of length 2001,
exceeding the configured 2000-character maximum, so the claimed length
bound fails on the code. -/
theorem sentence_length_cap_refuted :
    splitIntoSentences (List.replicate 2001 'a') = [List.replicate 2001 'a']
    ∧ ¬ (∀ s ∈ splitIntoSentences (List.replicate 2001 'a'),
          s.length ≤ MAX_SENTENCE_LENGTH) := by
  have hne : (List.replicate 2001 'a' : Str) ≠ [] := by
    intro h
    have h2 : (List.replicate 2001 'a' : Str).length = 0 := by rw [h]; rfl
    rw [List.length_replicate] at h2
    exact absurd h2 (by norm_num)
  have htr : trimChars (List.replicate 2001 'a') = List.replicate 2001 'a' :=
    trimChars_replicate 2001 'a' (by decide)
  have hscan : scanBlocks (List.replicate 2001 'a') = [] := by
    unfold scanBlocks
    rw [List.length_replicate]
    have h := scanBlocksGo_replicate 2001 0 []
    rw [List.append_nil, Nat.zero_add] at h
    exact h.trans rfl
  have hph : placeheldText (List.replicate 2001 'a') = List.replicate 2001 'a' := by
    unfold placeheldText
    rw [hscan]
    rfl
  have hsp : splitParts (List.replicate 2001 'a') = [List.replicate 2001 'a'] := by
    refine splitParts_no_punct _ ?_
    intro c hc
    rcases List.mem_replicate.mp hc with ⟨_, rfl⟩
    decide
  have hra : reassembleGo [List.replicate 2001 'a'] [] = [List.replicate 2001 'a'] := by
    refine reassembleGo_single _ htr hne ?_
    refine List.all_eq_false.mpr ⟨'a', ?_, by decide⟩
    exact List.mem_replicate.mpr ⟨by norm_num, rfl⟩
  have hrs : restoredSentences (List.replicate 2001 'a') = [List.replicate 2001 'a'] := by
    unfold restoredSentences
    rw [hph, hsp, hra, hscan]
    rfl
  have hsplit1 : splitOnChar '\n' (List.replicate 2001 'a') = [List.replicate 2001 'a'] := by
    have h := splitOnChar_replicate_append '\n' 'a' (by decide) 2001 []
    rw [List.append_nil, show splitOnChar '\n' ([] : Str) = [[]] from rfl] at h
    simp only [List.headD_cons, List.tail_cons, List.append_nil] at h
    exact h
  have hsplit2 : splitOnChar ',' (List.replicate 2001 'a') = [List.replicate 2001 'a'] := by
    have h := splitOnChar_replicate_append ',' 'a' (by decide) 2001 []
    rw [List.append_nil, show splitOnChar ',' ([] : Str) = [[]] from rfl] at h
    simp only [List.headD_cons, List.tail_cons, List.append_nil] at h
    exact h
  have hpl : processLine (List.replicate 2001 'a') = [List.replicate 2001 'a'] := by
    unfold processLine
    rw [htr, List.length_replicate, if_neg (by norm_num),
      if_pos (by norm_num [MAX_SENTENCE_LENGTH]), hsplit2]
    exact commaJoinGo_single _ htr hne
  have hps : processSentence (List.replicate 2001 'a') = [List.replicate 2001 'a'] := by
    unfold processSentence
    rw [htr, List.length_replicate, if_neg (by norm_num),
      if_pos (by norm_num [MAX_SENTENCE_LENGTH]), hsplit1]
    rw [List.flatMap_cons, List.flatMap_nil, List.append_nil, hpl]
  have hfull : splitIntoSentences (List.replicate 2001 'a') = [List.replicate 2001 'a'] := by
    unfold splitIntoSentences
    rw [if_neg (by rw [htr, List.length_replicate]; norm_num), hrs]
    rw [List.flatMap_cons, List.flatMap_nil, List.append_nil, hps]
    rw [List.filter_cons_of_pos (by rw [List.length_replicate]; decide), List.filter_nil]
  refine ⟨hfull, ?_⟩
  intro hall
  have h1 := hall (List.replicate 2001 'a') (by rw [hfull]; exact List.mem_singleton.mpr rfl)
  rw [List.length_replicate] at h1
  norm_num [MAX_SENTENCE_LENGTH] at h1

theorem commaJoinGo_bounded (parts : List Str) (buffer : Str)
    (hparts : ∀ p ∈ parts, ',' ∉ p)
    (hbuf : buffer.length ≤ MAX_SENTENCE_LENGTH + 1 ∨ ',' ∉ buffer) :
    ∀ s ∈ commaJoinGo parts buffer,
      s.length ≤ MAX_SENTENCE_LENGTH + 1 ∨ ',' ∉ s := by
  induction parts generalizing buffer with
  | nil =>
    intro s hs
    unfold commaJoinGo at hs
    by_cases h : (trimChars buffer).length ≠ 0
    · rw [if_pos h] at hs
      rcases List.mem_singleton.mp hs with rfl
      rcases hbuf with hb | hb
      · exact Or.inl (le_trans (trimChars_length_le buffer) hb)
      · exact Or.inr (fun hc => hb (mem_trimChars buffer ',' hc))
    · rw [if_neg h] at hs; cases hs
  | cons p ps ih =>
    intro s hs
    unfold commaJoinGo at hs
    by_cases hc : MAX_SENTENCE_LENGTH < (buffer ++ p).length ∧ buffer.length ≠ 0
    · rw [if_pos hc] at hs
      rcases List.mem_cons.mp hs with rfl | hmem
      · rcases hbuf with hb | hb
        · exact Or.inl (le_trans (trimChars_length_le buffer) hb)
        · exact Or.inr (fun hcm => hb (mem_trimChars buffer ',' hcm))
      · exact ih p (fun q hq => hparts q (List.mem_cons_of_mem p hq))
          (Or.inr (hparts p (List.mem_cons_self p ps))) s hmem
    · rw [if_neg hc] at hs
      by_cases hb0 : buffer.length ≠ 0
      · have hlen : (buffer ++ p).length ≤ MAX_SENTENCE_LENGTH := by
          by_contra hcon
          exact hc ⟨lt_of_not_le hcon, hb0⟩
        rw [if_pos hb0] at hs
        refine ih _ (fun q hq => hparts q (List.mem_cons_of_mem p hq)) ?_ s hs
        left
        rw [List.length_append] at hlen
        simp only [List.length_append, List.length_cons]
        omega
      · rw [if_neg hb0] at hs
        refine ih _ (fun q hq => hparts q (List.mem_cons_of_mem p hq)) ?_ s hs
        right
        intro hcm
        rcases List.mem_append.mp hcm with h1 | h1
        · simp only [not_not] at hb0
          rw [List.length_eq_zero.mp hb0] at h1
          cases h1
        · exact hparts p (List.mem_cons_self p ps) h1

/-- C5 amended: every sentence returned by the Sentence Segmenter either
has length at most 2001 characters (the off-by-one comes from the
overflow check running before the joining comma is appended) or
contains no comma at all — the re-splitting only flushes at comma
boundaries, so a comma-free fragment longer than the maximum passes
through unchanged. -/
theorem sentence_length_bound_amended (text s : Str) (hs : s ∈ splitIntoSentences text) :
    s.length ≤ MAX_SENTENCE_LENGTH + 1 ∨ ',' ∉ s := by
  unfold splitIntoSentences at hs
  by_cases h0 : (trimChars text).length = 0
  · rw [if_pos h0] at hs; cases hs
  · rw [if_neg h0] at hs
    have hs1 := (List.mem_filter.mp hs).1
    rcases List.mem_flatMap.mp hs1 with ⟨sen, hsen, hmem⟩
    unfold processSentence at hmem
    by_cases ht : (trimChars sen).length = 0
    · rw [if_pos ht] at hmem; cases hmem
    · rw [if_neg ht] at hmem
      by_cases hlong : MAX_SENTENCE_LENGTH < sen.length
      · rw [if_pos hlong] at hmem
        rcases List.mem_flatMap.mp hmem with ⟨line, hline, hmem2⟩
        unfold processLine at hmem2
        by_cases ht2 : (trimChars line).length = 0
        · rw [if_pos ht2] at hmem2; cases hmem2
        · rw [if_neg ht2] at hmem2
          by_cases hlong2 : MAX_SENTENCE_LENGTH < line.length
          · rw [if_pos hlong2] at hmem2
            exact commaJoinGo_bounded (splitOnChar ',' line) []
              (fun q hq => not_mem_splitOnChar ',' line q hq) (Or.inl (by simp)) s hmem2
          · rw [if_neg hlong2] at hmem2
            rcases List.mem_singleton.mp hmem2 with rfl
            exact Or.inl (le_trans (trimChars_length_le line) (by omega))
      · rw [if_neg hlong] at hmem
        rcases List.mem_singleton.mp hmem with rfl
        exact Or.inl (by omega)

theorem sentence_length_bound_amended_witness :
    ("Hi.".toList : Str).length ≤ MAX_SENTENCE_LENGTH + 1 ∨ ',' ∉ ("Hi.".toList : Str) :=
  sentence_length_bound_amended ("Hi. Bye.".toList) ("Hi.".toList) (by decide)

/-! ## C6: code blocks chopped by the overlength re-split -/

theorem lstarts_mem (pat : Str) : ∀ (l : Str), lstarts pat l = true → ∀ c ∈ pat, c ∈ l := by
  induction pat with
  | nil => intro l h c hc; cases hc
  | cons p ps ih =>
    intro l h c hc
    cases l with
    | nil => simp [lstarts] at h
    | cons d ds =>
      rw [show lstarts (p :: ps) (d :: ds) = ((p == d) && lstarts ps ds) from rfl,
        Bool.and_eq_true] at h
      rcases List.mem_cons.mp hc with rfl | hmem
      · have hd : c = d := by simpa using h.1
        rw [hd]
        exact List.mem_cons_self d ds
      · exact List.mem_cons_of_mem d (ih ds h.2 c hmem)

theorem findSub_mem (pat : Str) : ∀ (l : Str) (i : Nat), findSub pat l = some i →
    ∀ c ∈ pat, c ∈ l := by
  intro l
  induction l with
  | nil =>
    intro i h c hc
    unfold findSub at h
    by_cases hp : lstarts pat [] = true
    · cases pat with
      | nil => cases hc
      | cons q qs => simp [lstarts] at hp
    · rw [if_neg hp] at h
      cases h
  | cons d ds ih =>
    intro i h c hc
    unfold findSub at h
    by_cases hp : lstarts pat (d :: ds) = true
    · exact lstarts_mem pat (d :: ds) hp c hc
    · rw [if_neg hp] at h
      rcases Option.map_eq_some'.mp h with ⟨j, hj, _⟩
      exact List.mem_cons_of_mem d (ih j hj c hc)

theorem hasSub_eq_false_of (pat l : Str) (c : Char) (hc : c ∈ pat) (hnl : c ∉ l) :
    hasSub pat l = false := by
  unfold hasSub
  cases hf : findSub pat l with
  | none => rfl
  | some i => exact absurd (findSub_mem pat l i hf c hc) hnl

theorem replaceFirst_cons_skip (pat repl : Str) (c : Char) (rest : Str)
    (h : lstarts pat (c :: rest) = false) :
    replaceFirst pat repl (c :: rest) = c :: replaceFirst pat repl rest := by
  show (if lstarts pat (c :: rest) = true then repl ++ (c :: rest).drop pat.length
        else c :: replaceFirst pat repl rest) = c :: replaceFirst pat repl rest
  rw [if_neg (by simp [h])]

theorem replaceFirst_replicate_append (pat repl : Str) (p0 : Char)
    (hp : pat.head? = some p0) (hne : (p0 == 'a') = false) (n : ℕ) (t : Str) :
    replaceFirst pat repl (List.replicate n 'a' ++ t)
      = List.replicate n 'a' ++ replaceFirst pat repl t := by
  induction n with
  | zero => rfl
  | succ m ih =>
    rw [List.replicate_succ, List.cons_append]
    have hl : lstarts pat ('a' :: (List.replicate m 'a' ++ t)) = false := by
      cases pat with
      | nil => simp at hp
      | cons q qs =>
        have hq : q = p0 := by simpa using hp
        rw [show lstarts (q :: qs) ('a' :: (List.replicate m 'a' ++ t))
            = ((q == 'a') && lstarts qs (List.replicate m 'a' ++ t)) from rfl, hq, hne,
          Bool.false_and]
    rw [replaceFirst_cons_skip pat repl 'a' _ hl, ih, ← List.cons_append,
      ← List.replicate_succ]

/-- C6 (code-bug evidence): on a 2001-character input whose fenced code
block spans a newline, the extraction stage does find the block, yet
the final output sentences — produced by the over-length newline
re-split that runs after placeholder restoration — are two fragments
neither of which contains the block, so segmentation does not preserve
the fenced code span verbatim. -/
theorem code_block_not_preserved :
    scanBlocks cexC6 = [blkC6]
    ∧ splitIntoSentences cexC6 = [l1C6, "y```".toList]
    ∧ ∀ s ∈ splitIntoSentences cexC6, hasSub blkC6 s = false := by
  have hlenTail : (' ' :: blkC6).length = 10 := by decide
  have hlenC : cexC6.length = 10 + 1991 := by
    show (List.replicate 1991 'a' ++ ' ' :: blkC6).length = 10 + 1991
    rw [List.length_append, List.length_replicate, hlenTail]
  have hscanC : scanBlocks cexC6 = [blkC6] := by
    unfold scanBlocks
    rw [hlenC]
    show scanBlocksGo (10 + 1991) (List.replicate 1991 'a' ++ ' ' :: blkC6) = [blkC6]
    rw [scanBlocksGo_replicate 1991 10 (' ' :: blkC6)]
    decide
  have hphC : placeheldText cexC6 = List.replicate 1991 'a' ++ ' ' :: placeholderStr 0 := by
    unfold placeheldText
    rw [hscanC]
    show replaceFirst blkC6 (placeholderStr 0) cexC6 = _
    show replaceFirst blkC6 (placeholderStr 0) (List.replicate 1991 'a' ++ ' ' :: blkC6) = _
    rw [replaceFirst_replicate_append blkC6 (placeholderStr 0) backtick (by decide) (by decide)
      1991 (' ' :: blkC6)]
    rw [show replaceFirst blkC6 (placeholderStr 0) (' ' :: blkC6)
        = ' ' :: placeholderStr 0 from by decide]
  have hneS6 : (List.replicate 1991 'a' ++ ' ' :: placeholderStr 0 : Str) ≠ [] := by
    intro h
    have h2 : (List.replicate 1991 'a' ++ ' ' :: placeholderStr 0 : Str).length = 0 := by
      rw [h]; rfl
    rw [List.length_append, List.length_replicate] at h2
    omega
  have htrS6 : trimChars (List.replicate 1991 'a' ++ ' ' :: placeholderStr 0)
      = List.replicate 1991 'a' ++ ' ' :: placeholderStr 0 := by
    refine trimChars_eq_self _ ?_ ?_
    · intro c hc
      rw [show (1991 : ℕ) = 1990 + 1 from rfl, List.replicate_succ, List.cons_append,
        List.head?_cons] at hc
      cases hc
      decide
    · intro c hc
      rw [List.getLast?_append,
        show (' ' :: placeholderStr 0).getLast? = some '_' from by decide] at hc
      cases hc
      decide
  have hspC : splitParts (List.replicate 1991 'a' ++ ' ' :: placeholderStr 0)
      = [List.replicate 1991 'a' ++ ' ' :: placeholderStr 0] := by
    refine splitParts_no_punct _ ?_
    intro c hc
    rcases List.mem_append.mp hc with h | h
    · rcases List.mem_replicate.mp h with ⟨_, rfl⟩
      decide
    · exact (by decide : ∀ c ∈ (' ' :: placeholderStr 0), isPunctChar c = false) c h
  have hraC : reassembleGo [List.replicate 1991 'a' ++ ' ' :: placeholderStr 0] []
      = [List.replicate 1991 'a' ++ ' ' :: placeholderStr 0] := by
    refine reassembleGo_single _ htrS6 hneS6 ?_
    refine List.all_eq_false.mpr ⟨'a', ?_, by decide⟩
    exact List.mem_append.mpr (Or.inl (List.mem_replicate.mpr ⟨by norm_num, rfl⟩))
  have hrsC : restoredSentences cexC6 = [cexC6] := by
    unfold restoredSentences
    rw [hphC, hspC, hraC, hscanC]
    show [restoreBlocks [blkC6] (List.replicate 1991 'a' ++ ' ' :: placeholderStr 0)]
      = [cexC6]
    have hrb : restoreBlocks [blkC6] (List.replicate 1991 'a' ++ ' ' :: placeholderStr 0)
        = cexC6 := by
      show replaceFirst (placeholderStr 0) blkC6
        (List.replicate 1991 'a' ++ ' ' :: placeholderStr 0) = cexC6
      rw [replaceFirst_replicate_append (placeholderStr 0) blkC6 '_' (by decide) (by decide)
        1991 (' ' :: placeholderStr 0)]
      rw [show replaceFirst (placeholderStr 0) blkC6 (' ' :: placeholderStr 0)
          = ' ' :: blkC6 from by decide]
      rfl
    rw [hrb]
  have htrC : trimChars cexC6 = cexC6 := by
    refine trimChars_eq_self _ ?_ ?_
    · intro c hc
      rw [show cexC6 = 'a' :: (List.replicate 1990 'a' ++ ' ' :: blkC6) from rfl,
        List.head?_cons] at hc
      cases hc
      decide
    · intro c hc
      rw [show cexC6 = List.replicate 1991 'a' ++ ' ' :: blkC6 from rfl,
        List.getLast?_append,
        show (' ' :: blkC6).getLast? = some backtick from by decide] at hc
      cases hc
      decide
  have hlines : splitOnChar '\n' cexC6 = [l1C6, "y```".toList] := by
    show splitOnChar '\n' (List.replicate 1991 'a' ++ ' ' :: blkC6) = _
    rw [splitOnChar_replicate_append '\n' 'a' (by decide) 1991 (' ' :: blkC6),
      show splitOnChar '\n' (' ' :: blkC6)
        = [' ' :: "```x".toList, "y```".toList] from by decide]
    rfl
  have hlenL1 : l1C6.length = 1996 := by
    show (List.replicate 1991 'a' ++ ' ' :: "```x".toList).length = 1996
    rw [List.length_append, List.length_replicate,
      show (' ' :: "```x".toList).length = 5 from by decide]
  have htrL1 : trimChars l1C6 = l1C6 := by
    refine trimChars_eq_self _ ?_ ?_
    · intro c hc
      rw [show l1C6 = 'a' :: (List.replicate 1990 'a' ++ ' ' :: "```x".toList) from rfl,
        List.head?_cons] at hc
      cases hc
      decide
    · intro c hc
      rw [show l1C6 = List.replicate 1991 'a' ++ ' ' :: "```x".toList from rfl,
        List.getLast?_append,
        show (' ' :: "```x".toList).getLast? = some 'x' from by decide] at hc
      cases hc
      decide
  have hpl1 : processLine l1C6 = [l1C6] := by
    unfold processLine
    rw [htrL1, hlenL1, if_neg (by norm_num), if_neg (by norm_num [MAX_SENTENCE_LENGTH])]
  have hpl2 : processLine ("y```".toList) = ["y```".toList] := by decide
  have hpsC : processSentence cexC6 = [l1C6, "y```".toList] := by
    unfold processSentence
    rw [htrC, hlenC, if_neg (by norm_num), if_pos (by norm_num [MAX_SENTENCE_LENGTH]),
      hlines, List.flatMap_cons, List.flatMap_cons, List.flatMap_nil, hpl1, hpl2,
      List.append_nil]
    rfl
  have hfullC : splitIntoSentences cexC6 = [l1C6, "y```".toList] := by
    unfold splitIntoSentences
    rw [if_neg (by rw [htrC, hlenC]; norm_num), hrsC, List.flatMap_cons, List.flatMap_nil,
      List.append_nil, hpsC]
    rw [List.filter_cons_of_pos (by rw [hlenL1]; decide),
      List.filter_cons_of_pos (by decide), List.filter_nil]
  refine ⟨hscanC, hfullC, ?_⟩
  intro s hs
  rw [hfullC] at hs
  rcases List.mem_cons.mp hs with rfl | hs2
  · refine hasSub_eq_false_of _ _ '\n' (by decide) ?_
    intro hmem
    rcases List.mem_append.mp hmem with h | h
    · rcases List.mem_replicate.mp h with ⟨_, h2⟩
      cases h2
    · exact absurd h (by decide)
  · rcases List.mem_singleton.mp hs2 with rfl
    decide
